import Mathlib

/-!
Verification of the adverse-impact statistical pipeline of the iopsy
repository (src/iopsy/adverse_impact.py, with the relevant part of
src/iopsy/analysis.py).

The pipeline is embedded shallowly: pandas Series/DataFrames become Lists,
float columns become rationals (ℚ), and the Python failure modes that the
modelled code paths can hit (AttributeError, KeyError, IndexError,
TypeError) become an explicit error type.  Division of a float series by
zero, which pandas performs silently, is modelled by a small inductive type
carrying the infinite and NaN outcomes.
-/

namespace Iopsy

/-- Result of a pandas float computation: a finite rational, one of the two
infinities, or NaN. -/
inductive PandasFloat where
  | val (q : ℚ)
  | inf
  | ninf
  | nan
deriving DecidableEq, Repr

/-- Exceptions the Python runtime raises in the modelled code paths. -/
inductive PyError where
  | attributeError
  | keyError (k : String)
  | indexError
  | typeError
deriving DecidableEq, Repr

/-- Division as pandas performs it on float values: a zero denominator
silently yields NaN (for 0/0) or a signed infinity, never an exception. -/
def pdiv (a b : ℚ) : PandasFloat :=
  if b = 0 then (if a = 0 then .nan else if 0 < a then .inf else .ninf)
  else .val (a / b)

/-- One row of the table produced by selection_rates: the group label
(index), the selection rate column sr and the sample size column n. -/
structure GroupStat where
  g : String
  sr : ℚ
  n : ℕ
deriving DecidableEq, Repr

/-- Embedding of cut(y, score, groups) from adverse_impact.py.  The numeric
branch returns the elementwise comparison y >= score; the categorical
branch normalises a single label to a one-element list (the isinstance
check) and returns elementwise membership; when neither argument is given
the Python function falls through and implicitly returns None, which is the
none of the Option result. -/
def cut {α : Type} [DecidableEq α] [LE α] [DecidableRel (fun a b : α => a ≤ b)]
    (y : List α) (score : Option α) (groups : Option (α ⊕ List α)) :
    Option (List Bool) :=
  match score with
  | some s => some (y.map (fun v => decide (s ≤ v)))
  | none =>
    match groups with
    | some gs =>
      let gl := match gs with
        | .inl g => [g]
        | .inr l => l
      some (y.map (fun v => gl.contains v))
    | none => none

/-- Embedding of selection_rates(score, by) from adverse_impact.py: group
the aligned (by, score) rows by the group label and record, per distinct
label, the mean of the booleans (the sr column) and the row count (the n
column).  Pandas sorts the group index; the embedding keeps the distinct
labels in first-occurrence order, which is also a fixed deterministic
order, and no property below depends on the row order of the table. -/
def selection_rates (score : List Bool) (byv : List String) : List GroupStat :=
  let rows := byv.zip score
  (byv.dedup).map (fun g =>
    let grp := rows.filter (fun r => r.1 == g)
    ⟨g, ((grp.filter (fun r => r.2)).length : ℚ) / (grp.length : ℚ), grp.length⟩)

/-- The strict preference used by determine_referent: a candidate x beats
the current best b when it has a larger sr, or an equal sr and a larger n
(the sort keys ['sr','n'] of the source, in descending order). -/
def better (b x : GroupStat) : Bool :=
  decide (b.sr < x.sr) || (decide (b.sr = x.sr) && decide (b.n < x.n))

/-- First row of the descending ['sr','n'] sort, computed as a single
argmax pass keeping the earlier row on full ties (one deterministic
refinement of the unstable sort the source uses); none on the empty table,
where the source's .index[0] raises IndexError. -/
def pickBest : List GroupStat → Option GroupStat
  | [] => none
  | r :: rs => some (rs.foldl (fun b x => if better b x then x else b) r)

/-- Embedding of determine_referent(sr, min_ref) from adverse_impact.py:
drop the rows with n below min_ref, sort by ['sr','n'] descending and take
the label of the first row. -/
def determine_referent (sr : List GroupStat) (min_ref : ℕ) : Option String :=
  (pickBest (sr.filter (fun r => decide (min_ref ≤ r.n)))).map GroupStat.g

/-- The weak preorder matching better: x is at most as preferred as y under
the sort keys ['sr','n']. -/
def gsLE (x y : GroupStat) : Prop := x.sr < y.sr ∨ (x.sr = y.sr ∧ x.n ≤ y.n)

/-- Lookup sr.loc[referent, 'sr']: none models the KeyError pandas raises
when the referent is not in the index. -/
def srLookup (stats : List GroupStat) (g : String) : Option ℚ :=
  (stats.find? (fun r => r.g == g)).map GroupStat.sr

/-- Embedding of impact_ratios(sr, referent) from adverse_impact.py: divide
every group's sr (the referent's own row included) by the referent's sr,
with pandas division semantics. -/
def impact_ratios (stats : List GroupStat) (referent : String) :
    Option (List (String × PandasFloat)) :=
  (srLookup stats referent).map (fun rr => stats.map (fun r => (r.g, pdiv r.sr rr)))

/-- Hypergeometric weight of the 2x2 table with row sums r1, r2, first
column sum c1 and first cell k: the number of ways to realise that table,
choose(r1, k) * choose(r2, c1 - k). -/
def hwt (r1 r2 c1 k : ℕ) : ℕ := r1.choose k * r2.choose (c1 - k)

/-- Numerator of the two-sided Fisher exact test on [[a,b],[c,d]]: the
total weight of the tables with the observed margins whose weight does not
exceed the observed table's weight. -/
def fisherNum (a b c d : ℕ) : ℕ :=
  (Finset.range (a + c + 1)).sum (fun k =>
    if hwt (a + b) (c + d) (a + c) k ≤ hwt (a + b) (c + d) (a + c) a
    then hwt (a + b) (c + d) (a + c) k else 0)

/-- Denominator of the Fisher exact test on [[a,b],[c,d]]: the total weight
choose(N, c1) of all tables with the observed margins. -/
def fisherDen (a b c d : ℕ) : ℕ := (a + b + (c + d)).choose (a + c)

/-- The two-sided Fisher exact test p-value on the 2x2 table [[a,b],[c,d]],
as scipy.stats.fisher_exact computes it (exact rational arithmetic in place
of scipy's floating point). -/
def fisher_exact (a b c d : ℕ) : ℚ := (fisherNum a b c d : ℚ) / (fisherDen a b c d : ℚ)

/-- Reference definition of the two-sided exact hypothesis test, written
from the specification's description rather than from the code: over all
valid 2x2 tables with the observed margins (parameterised by the first
cell k), sum the hypergeometric probability of every table whose
probability does not exceed that of the observed table. -/
def specExactTest (a b c d : ℕ) : ℚ :=
  let r1 := a + b
  let r2 := c + d
  let c1 := a + c
  let N := r1 + r2
  let pmf : ℕ → ℚ := fun k => ((r1.choose k * r2.choose (c1 - k) : ℕ) : ℚ) / ((N.choose c1 : ℕ) : ℚ)
  ((Finset.range (N + 1)).filter (fun k =>
      k ≤ r1 ∧ c1 ≤ r2 + k ∧ k ≤ c1 ∧ pmf k ≤ pmf a)).sum pmf

/-- One cell of pandas.crosstab(by, score): the number of rows whose group
label is g and whose score is v. -/
def cellCount (byv : List String) (score : List Bool) (g : String) (v : Bool) : ℕ :=
  ((byv.zip score).filter (fun r => r.1 == g && r.2 == v)).length

/-- Index of pandas.crosstab(by, score): the distinct group labels (kept in
first-occurrence order, see selection_rates). -/
def crosstabIndex (byv : List String) : List String := byv.dedup

/-- Embedding of fet_series(by, score, referent) together with
contingency_generator from adverse_impact.py: for every non-referent group
of the crosstab, the Fisher exact p-value of the 2x2 table of raw pass/fail
counts [[focal fail, focal pass], [referent fail, referent pass]] (crosstab
columns are the sorted score values false, true).  none models the KeyError
of tab.index.drop(referent) when the referent is not in the crosstab. -/
def fet_series (byv : List String) (score : List Bool) (referent : String) :
    Option (List (String × ℚ)) :=
  if referent ∈ crosstabIndex byv then
    some (((crosstabIndex byv).filter (fun g => g != referent)).map (fun focal =>
      (focal, fisher_exact (cellCount byv score focal false) (cellCount byv score focal true)
        (cellCount byv score referent false) (cellCount byv score referent true))))
  else none

/-- A row of the modelled input table: the x (group) column and the y
(score) column, the only columns the pipeline reads. -/
abbrev Row := String × ℚ

/-- Embedding of the body of Analysis.__init__ from analysis.py that the
orchestrator runs first: when filters is None the loop header
filters.items() raises AttributeError; otherwise each configured filter is
applied in turn, every application keeping the rows its row predicate
accepts (drop_outlier builds such a boolean mask; the predicate is passed
in, as Python passes the method object). -/
def analysisInitData (rows : List Row) (filters : Option (List (Row → Bool))) :
    Except PyError (List Row) :=
  match filters with
  | none => .error .attributeError
  | some fs => .ok (fs.foldl (fun d f => d.filter f) rows)

/-- The fields AdverseImpact.__init__ stores for later use. -/
structure AIReport where
  stats : List GroupStat
  referent : String
  effect : List (String × PandasFloat)
  p : List (String × ℚ)
deriving Repr

/-- Embedding of AdverseImpact.__init__ from adverse_impact.py: run the
Analysis base constructor (whose filter loop can raise), then cut,
selection_rates, the referent assignment (an explicitly supplied referent
is stored without any validation; otherwise determine_referent runs and its
empty-table IndexError surfaces), impact_ratios and fet_series.  The stages
read the original data argument, exactly as the source does. -/
def adverseImpact (x : List String) (y : List ℚ) (cutscore : Option ℚ)
    (groups : Option (ℚ ⊕ List ℚ)) (filters : Option (List (Row → Bool)))
    (referent : Option String) (min_ref : ℕ) : Except PyError AIReport :=
  match analysisInitData (x.zip y) filters with
  | .error e => .error e
  | .ok _ =>
    match cut y cutscore groups with
    | none => .error .typeError
    | some score =>
      let sr := selection_rates score x
      match (match referent with
             | some r => some r
             | none => determine_referent sr min_ref) with
      | none => .error .indexError
      | some ref =>
        match impact_ratios sr ref with
        | none => .error (.keyError ref)
        | some eff =>
          match fet_series x score ref with
          | none => .error (.keyError ref)
          | some p => .ok ⟨sr, ref, eff, p⟩

/-- Scenario D group column: ten records of group A followed by ten of
group B. -/
def scenarioD_groups : List String := List.replicate 10 "A" ++ List.replicate 10 "B"

/-- Scenario D score column: A passes 8 of 10, B passes 2 of 10. -/
def scenarioD_score : List Bool :=
  List.replicate 8 true ++ List.replicate 2 false ++
    (List.replicate 2 true ++ List.replicate 8 false)

end Iopsy

namespace Iopsy

/-- C4: the source's cut silently misbehaves on a bad configuration instead
of raising a configuration error: with neither a threshold nor passing
labels it falls through and returns the absent value None, and with both
supplied it ignores the labels and returns the threshold classification. -/
theorem cut_bad_config_is_silent :
    cut ([1, 2, 3] : List ℚ) none none = none ∧
    cut ([1, 2, 3] : List ℚ) (some 2) (some (Sum.inr [3])) = some [false, true, true] := by
  constructor
  · rfl
  · rfl

/-- C6: when no group reaches the min_ref floor, determine_referent filters
the table to nothing and .index[0] fails on the empty frame (modelled by
none, surfaced by the orchestrator as a bare IndexError), not with the
explicit insufficient-sample error the specification requires. -/
theorem determine_referent_below_floor :
    determine_referent [⟨"A", 0, 3⟩, ⟨"B", 1, 3⟩] 5 = none ∧
    adverseImpact ["A", "A", "A", "B", "B", "B"] [0, 0, 0, 1, 1, 1] (some 1) none
      (some []) none 5 = .error .indexError := by
  constructor
  · rfl
  · rfl

/-- C7: with a referent whose selection rate is zero, impact_ratios
silently returns NaN for the referent's own row (0/0) and infinity for a
group with a positive rate, instead of signalling an undefined-statistic
error. -/
theorem impact_ratios_zero_referent_silent :
    impact_ratios [⟨"A", 0, 5⟩, ⟨"B", 1, 5⟩] "A" =
      some [("A", PandasFloat.nan), ("B", PandasFloat.inf)] := by
  rfl

/-- C5: an explicitly supplied referent that is not an observed group is
stored without validation, so construction proceeds past referent
assignment and only fails later, when impact_ratios looks the referent up
in the selection-rate table (a KeyError), not with a configuration error. -/
theorem adverseImpact_unvalidated_referent :
    adverseImpact ["A", "A", "B", "B"] [1, 2, 3, 4] (some 3) none (some [])
      (some "Z") 5 = .error (.keyError "Z") := by
  rfl

/-- gsLE is reflexive. -/
theorem gsLE_refl (x : GroupStat) : gsLE x x := Or.inr ⟨rfl, le_refl _⟩

/-- gsLE is transitive. -/
theorem gsLE_trans {x y z : GroupStat} (h1 : gsLE x y) (h2 : gsLE y z) : gsLE x z := by
  rcases h1 with h1 | ⟨e1, n1⟩
  · rcases h2 with h2 | ⟨e2, n2⟩
    · exact Or.inl (h1.trans h2)
    · exact Or.inl (e2 ▸ h1)
  · rcases h2 with h2 | ⟨e2, n2⟩
    · exact Or.inl (e1 ▸ h2)
    · exact Or.inr ⟨e1.trans e2, n1.trans n2⟩

/-- One step of the argmax fold returns one of its two arguments. -/
theorem pickStep_mem (b x : GroupStat) :
    (if better b x then x else b) = b ∨ (if better b x then x else b) = x := by
  by_cases h : better b x <;> simp [h]

/-- The current best never decreases across one step of the argmax fold. -/
theorem gsLE_pickStep_left (b x : GroupStat) : gsLE b (if better b x then x else b) := by
  by_cases h : better b x
  · simp only [h, if_true]
    simp only [better, Bool.or_eq_true, Bool.and_eq_true, decide_eq_true_eq] at h
    rcases h with h | ⟨e, n⟩
    · exact Or.inl h
    · exact Or.inr ⟨e, le_of_lt n⟩
  · simp only [h, if_false]
    exact gsLE_refl b

/-- The candidate is at most as preferred as the step's result. -/
theorem gsLE_pickStep_right (b x : GroupStat) : gsLE x (if better b x then x else b) := by
  by_cases h : better b x
  · simp only [h, if_true]
    exact gsLE_refl x
  · simp only [h, if_false]
    simp only [better, Bool.or_eq_true, Bool.and_eq_true, decide_eq_true_eq,
      not_or, not_and, not_lt] at h
    obtain ⟨h1, h2⟩ := h
    rcases eq_or_lt_of_le h1 with e | l
    · exact Or.inr ⟨e, h2 e.symm⟩
    · exact Or.inl l

/-- The argmax fold of pickBest yields an element of the candidate set that
every candidate (and the seed) is at most as preferred as. -/
theorem pickFold_spec (rs : List GroupStat) (b : GroupStat) :
    (rs.foldl (fun b x => if better b x then x else b) b = b ∨
      rs.foldl (fun b x => if better b x then x else b) b ∈ rs) ∧
    gsLE b (rs.foldl (fun b x => if better b x then x else b) b) ∧
    ∀ x ∈ rs, gsLE x (rs.foldl (fun b x => if better b x then x else b) b) := by
  induction rs generalizing b with
  | nil => exact ⟨Or.inl rfl, gsLE_refl b, by simp⟩
  | cons a t ih =>
    simp only [List.foldl_cons]
    obtain ⟨hmem, hble, hall⟩ := ih (if better b a then a else b)
    refine ⟨?_, ?_, ?_⟩
    · rcases hmem with h | h
      · rcases pickStep_mem b a with h2 | h2
        · exact Or.inl (h.trans h2)
        · exact Or.inr (by rw [h.trans h2]; exact List.mem_cons_self a t)
      · exact Or.inr (List.mem_cons_of_mem a h)
    · exact gsLE_trans (gsLE_pickStep_left b a) hble
    · intro x hx
      rcases List.mem_cons.mp hx with rfl | hx
      · exact gsLE_trans (gsLE_pickStep_right b x) hble
      · exact hall x hx

/-- pickBest of a nonempty list returns a member that dominates the list
under gsLE. -/
theorem pickBest_spec (l : List GroupStat) (hne : l ≠ []) :
    ∃ r, pickBest l = some r ∧ r ∈ l ∧ ∀ x ∈ l, gsLE x r := by
  match l with
  | [] => exact absurd rfl hne
  | a :: t =>
    obtain ⟨hmem, hble, hall⟩ := pickFold_spec t a
    refine ⟨_, rfl, ?_, ?_⟩
    · rcases hmem with h | h
      · exact (by rw [h]; exact List.mem_cons_self a t)
      · exact List.mem_cons_of_mem a h
    · intro x hx
      rcases List.mem_cons.mp hx with rfl | hx
      · exact hble
      · exact hall x hx

/-- C1: whenever some group reaches the min_ref floor, determine_referent
returns the label of a group at or above the floor whose selection rate is
maximal among the groups at or above the floor, and whose sample size is
maximal among those tied on that rate; in particular with sample sizes
3, 3, 10 and floor 5 the third group is selected whatever the rates are. -/
theorem determine_referent_selects_max :
    (∀ (stats : List GroupStat) (minN : ℕ), (∃ r ∈ stats, minN ≤ r.n) →
      ∃ r : GroupStat, determine_referent stats minN = some r.g ∧ r ∈ stats ∧ minN ≤ r.n ∧
        (∀ x ∈ stats, minN ≤ x.n → x.sr ≤ r.sr) ∧
        (∀ x ∈ stats, minN ≤ x.n → x.sr = r.sr → x.n ≤ r.n)) ∧
    (∀ s1 s2 s3 : ℚ,
      determine_referent [⟨"A", s1, 3⟩, ⟨"B", s2, 3⟩, ⟨"C", s3, 10⟩] 5 = some "C") := by
  constructor
  · intro stats minN hex
    obtain ⟨r0, hr0, hn0⟩ := hex
    have hne : stats.filter (fun r => decide (minN ≤ r.n)) ≠ [] := by
      intro hemp
      have : r0 ∈ stats.filter (fun r => decide (minN ≤ r.n)) :=
        List.mem_filter.mpr ⟨hr0, by simpa using hn0⟩
      rw [hemp] at this
      exact absurd this (List.not_mem_nil r0)
    obtain ⟨r, hpick, hmem, hdom⟩ := pickBest_spec _ hne
    obtain ⟨hrs, hrn⟩ := List.mem_filter.mp hmem
    refine ⟨r, ?_, hrs, by simpa using hrn, ?_, ?_⟩
    · rw [determine_referent, hpick]
      rfl
    · intro x hx hxn
      have hxf : x ∈ stats.filter (fun r => decide (minN ≤ r.n)) :=
        List.mem_filter.mpr ⟨hx, by simpa using hxn⟩
      rcases hdom x hxf with h | ⟨e, _⟩
      · exact le_of_lt h
      · exact le_of_eq e
    · intro x hx hxn hxe
      have hxf : x ∈ stats.filter (fun r => decide (minN ≤ r.n)) :=
        List.mem_filter.mpr ⟨hx, by simpa using hxn⟩
      rcases hdom x hxf with h | ⟨_, hn⟩
      · exact absurd hxe (ne_of_lt h)
      · exact hn
  · intro s1 s2 s3
    rfl

/-- Witness for C1 at a concrete table: group A (rate 1/2, n 6) qualifies
with floor 5, so the selection succeeds and picks a maximal group. -/
theorem determine_referent_selects_max_witness :
    ∃ r : GroupStat,
      determine_referent [⟨"A", 1/2, 6⟩, ⟨"B", 1, 2⟩] 5 = some r.g ∧
      r ∈ [⟨"A", 1/2, 6⟩, ⟨"B", 1, 2⟩] ∧ 5 ≤ r.n ∧
      (∀ x ∈ [GroupStat.mk "A" (1/2) 6, ⟨"B", 1, 2⟩], 5 ≤ x.n → x.sr ≤ r.sr) ∧
      (∀ x ∈ [GroupStat.mk "A" (1/2) 6, ⟨"B", 1, 2⟩], 5 ≤ x.n → x.sr = r.sr → x.n ≤ r.n) :=
  determine_referent_selects_max.1 [⟨"A", 1/2, 6⟩, ⟨"B", 1, 2⟩] 5
    ⟨⟨"A", 1/2, 6⟩, by simp, by norm_num⟩

/-- Mapping a key-preserving function over a table with pairwise distinct
group labels and then filtering on one present label keeps exactly the
image of that label's row. -/
theorem filter_map_single {β : Type} (F : GroupStat → String × β)
    (hF : ∀ x, (F x).1 = x.g) (l : List GroupStat)
    (hnd : (l.map GroupStat.g).Nodup) (r : GroupStat) (hr : r ∈ l) :
    (l.map F).filter (fun p => p.1 == r.g) = [F r] := by
  induction l with
  | nil => exact absurd hr (List.not_mem_nil r)
  | cons a t ih =>
    simp only [List.map_cons, List.nodup_cons] at hnd
    obtain ⟨hag, hndt⟩ := hnd
    rcases List.mem_cons.mp hr with rfl | hrt
    · have hhead : ((F r).1 == r.g) = true := by simp [hF r]
      simp only [List.map_cons, List.filter_cons, hhead, if_true, List.cons.injEq, true_and]
      apply List.filter_eq_nil_iff.mpr
      intro p hp
      obtain ⟨x, hx, rfl⟩ := List.mem_map.mp hp
      simp only [hF x, beq_iff_eq]
      intro he
      exact hag (he ▸ List.mem_map_of_mem GroupStat.g hx)
    · have hne : a.g ≠ r.g := by
        intro he
        exact hag (he ▸ List.mem_map_of_mem GroupStat.g hrt)
      have hhead : ((F a).1 == r.g) = false := by
        simp [hF a, hne]
      simp only [List.map_cons, List.filter_cons, hhead, Bool.false_eq_true, if_false]
      exact ih hndt hrt

/-- C2: when the referent is present with a non-zero selection rate,
impact_ratios succeeds, the output has one row per row of the input table,
every non-referent group's label appears in exactly one row carrying
exactly the finite ratio sr(group) / sr(referent), and the referent's own
row carries exactly the ratio 1. -/
theorem impact_ratios_spec (stats : List GroupStat) (referent : String) (rr : ℚ)
    (hfind : srLookup stats referent = some rr) (hnz : rr ≠ 0)
    (hnd : (stats.map GroupStat.g).Nodup) :
    ∃ out, impact_ratios stats referent = some out ∧
      out.length = stats.length ∧
      (∀ r ∈ stats, r.g ≠ referent →
        out.filter (fun p => p.1 == r.g) = [(r.g, PandasFloat.val (r.sr / rr))]) ∧
      (∀ r ∈ stats, r.g = referent →
        out.filter (fun p => p.1 == r.g) = [(r.g, PandasFloat.val 1)]) := by
  have hout : impact_ratios stats referent =
      some (stats.map (fun r => (r.g, pdiv r.sr rr))) := by
    rw [impact_ratios, hfind]
    rfl
  obtain ⟨r0, hfind0, hmap0⟩ := Option.map_eq_some'.mp hfind
  have hr0mem : r0 ∈ stats := List.mem_of_find?_eq_some hfind0
  have hr0g : r0.g = referent := by
    have := List.find?_some hfind0
    simpa using this
  have hr0sr : r0.sr = rr := hmap0
  refine ⟨stats.map (fun r => (r.g, pdiv r.sr rr)), hout, by simp, ?_, ?_⟩
  · intro r hr hne
    have heq := filter_map_single (fun r => (r.g, pdiv r.sr rr)) (fun x => rfl) stats hnd r hr
    rw [heq]
    simp only [pdiv, if_neg hnz]
  · intro r hr he
    have hreq : r = r0 :=
      List.inj_on_of_nodup_map hnd hr hr0mem (by rw [he, hr0g])
    have heq := filter_map_single (fun r => (r.g, pdiv r.sr rr)) (fun x => rfl) stats hnd r hr
    rw [heq]
    simp only [pdiv, if_neg hnz, hreq, hr0sr, div_self hnz]

/-- Witness for C2 at a concrete table: referent A with rate 1, group B
with rate 1/2. -/
theorem impact_ratios_spec_witness :
    ∃ out, impact_ratios [⟨"A", 1, 4⟩, ⟨"B", 1/2, 4⟩] "A" = some out ∧
      out.length = ([⟨"A", 1, 4⟩, ⟨"B", 1/2, 4⟩] : List GroupStat).length ∧
      (∀ r ∈ [GroupStat.mk "A" 1 4, ⟨"B", 1/2, 4⟩], r.g ≠ "A" →
        out.filter (fun p => p.1 == r.g) = [(r.g, PandasFloat.val (r.sr / 1))]) ∧
      (∀ r ∈ [GroupStat.mk "A" 1 4, ⟨"B", 1/2, 4⟩], r.g = "A" →
        out.filter (fun p => p.1 == r.g) = [(r.g, PandasFloat.val 1)]) :=
  impact_ratios_spec [⟨"A", 1, 4⟩, ⟨"B", 1/2, 4⟩] "A" 1 (by rfl) one_ne_zero (by simp)

/-- C8: cut in numeric mode returns a boolean vector of the input's length
whose entry i is true exactly when the outcome at i is at least the
threshold (the threshold itself passing); in categorical mode, with a label
list or with a single label, entry i is true exactly when the outcome at i
is a member of the passing set. -/
theorem cut_pointwise :
    (∀ (y : List ℚ) (t : ℚ), ∃ out, cut y (some t) none = some out ∧
      out.length = y.length ∧
      ∀ (i : ℕ) (hy : i < y.length) (ho : i < out.length),
        (out.get ⟨i, ho⟩ = true ↔ t ≤ y.get ⟨i, hy⟩)) ∧
    (∀ (y : List String) (labels : List String),
      ∃ out, cut y none (some (Sum.inr labels)) = some out ∧
      out.length = y.length ∧
      ∀ (i : ℕ) (hy : i < y.length) (ho : i < out.length),
        (out.get ⟨i, ho⟩ = true ↔ y.get ⟨i, hy⟩ ∈ labels)) ∧
    (∀ (y : List String) (lab : String),
      ∃ out, cut y none (some (Sum.inl lab)) = some out ∧
      out.length = y.length ∧
      ∀ (i : ℕ) (hy : i < y.length) (ho : i < out.length),
        (out.get ⟨i, ho⟩ = true ↔ y.get ⟨i, hy⟩ = lab)) := by
  refine ⟨?_, ?_, ?_⟩
  · intro y t
    refine ⟨y.map (fun v => decide (t ≤ v)), rfl, by simp, ?_⟩
    intro i hy ho
    simp [List.get_eq_getElem]
  · intro y labels
    refine ⟨y.map (fun v => labels.contains v), rfl, by simp, ?_⟩
    intro i hy ho
    simp [List.get_eq_getElem, List.elem_iff]
  · intro y lab
    refine ⟨y.map (fun v => [lab].contains v), rfl, by simp, ?_⟩
    intro i hy ho
    simp [List.get_eq_getElem, List.elem_iff]

/-- Witness for C8 at concrete inputs: threshold 25 over [10, 30] and label
B over [A, B]. -/
theorem cut_pointwise_witness :
    (∃ out, cut ([10, 30] : List ℚ) (some 25) none = some out ∧
      out.length = ([10, 30] : List ℚ).length ∧
      ∀ (i : ℕ) (hy : i < ([10, 30] : List ℚ).length) (ho : i < out.length),
        (out.get ⟨i, ho⟩ = true ↔ 25 ≤ ([10, 30] : List ℚ).get ⟨i, hy⟩)) ∧
    (∃ out, cut ["A", "B"] none (some (Sum.inl "B")) = some out ∧
      out.length = (["A", "B"] : List String).length ∧
      ∀ (i : ℕ) (hy : i < (["A", "B"] : List String).length) (ho : i < out.length),
        (out.get ⟨i, ho⟩ = true ↔ (["A", "B"] : List String).get ⟨i, hy⟩ = "B")) :=
  ⟨cut_pointwise.1 [10, 30] 25, cut_pointwise.2.2 ["A", "B"] "B"⟩

/-- The rows of a zipped table carrying a given group label are exactly as
many as that label's occurrences in the group column. -/
theorem zip_filter_count (byv : List String) (score : List Bool)
    (hlen : byv.length = score.length) (g : String) :
    ((byv.zip score).filter (fun r => r.1 == g)).length = byv.count g := by
  rw [← List.countP_eq_length_filter]
  have h1 : (byv.zip score).map Prod.fst = byv := List.map_fst_zip byv score (le_of_eq hlen)
  have h2 : List.countP (fun x => x == g) ((byv.zip score).map Prod.fst) =
      List.countP (fun r => Prod.fst r == g) (byv.zip score) := List.countP_map _ _ _
  rw [h1] at h2
  rw [← h2]
  rfl

/-- C9: over aligned score and group columns, selection_rates produces one
row per distinct group label (so the labels are exactly dedup of the group
column and the sample sizes sum to the record count), each row's n is the
number of records with that label, each row's sr lies in [0,1] and, times
n, equals the number of passing records with that label; Scenario A:
outcomes 10, 20, 30, 40 in groups A, A, B, B with threshold 25 classify as
F, F, T, T and aggregate to A: rate 0 with n 2 and B: rate 1 with n 2. -/
theorem selection_rates_spec (score : List Bool) (byv : List String)
    (hlen : byv.length = score.length) :
    ((selection_rates score byv).map GroupStat.n).sum = byv.length ∧
    (selection_rates score byv).map GroupStat.g = byv.dedup ∧
    (∀ r ∈ selection_rates score byv,
      0 ≤ r.sr ∧ r.sr ≤ 1 ∧ r.n = byv.count r.g ∧
      r.sr * (r.n : ℚ) =
        (((byv.zip score).filter (fun p => p.1 == r.g && p.2)).length : ℚ)) ∧
    (cut ([10, 20, 30, 40] : List ℚ) (some 25) none = some [false, false, true, true] ∧
      selection_rates [false, false, true, true] ["A", "A", "B", "B"] =
        [⟨"A", 0, 2⟩, ⟨"B", 1, 2⟩]) := by
  refine ⟨?_, ?_, ?_, ?_, ?_⟩
  · rw [selection_rates]
    rw [List.map_map]
    have hmc : (byv.dedup.map (GroupStat.n ∘ fun g =>
        (⟨g, ((((byv.zip score).filter (fun r => r.1 == g)).filter (fun r => r.2)).length : ℚ) /
          (((byv.zip score).filter (fun r => r.1 == g)).length : ℚ),
          ((byv.zip score).filter (fun r => r.1 == g)).length⟩ : GroupStat))) =
        byv.dedup.map (fun g => byv.count g) :=
      List.map_congr_left (fun g _ => zip_filter_count byv score hlen g)
    rw [hmc]
    exact List.sum_map_count_dedup_eq_length byv
  · rw [selection_rates]
    simp [List.map_map, Function.comp_def]
  · intro r hr
    rw [selection_rates] at hr
    simp only [List.mem_map] at hr
    obtain ⟨g, hg, rfl⟩ := hr
    simp only
    have hfle : ((((byv.zip score).filter (fun r => r.1 == g)).filter (fun r => r.2)).length) ≤
        ((byv.zip score).filter (fun r => r.1 == g)).length :=
      List.length_filter_le _ _
    have hff : (((byv.zip score).filter (fun r => r.1 == g)).filter (fun r => r.2)) =
        (byv.zip score).filter (fun p => p.1 == g && p.2) := by
      rw [List.filter_filter]
      exact List.filter_congr (fun a _ => Bool.and_comm _ _)
    refine ⟨?_, ?_, ?_, ?_⟩
    · exact div_nonneg (by positivity) (by positivity)
    · rcases Nat.eq_zero_or_pos ((byv.zip score).filter (fun r => r.1 == g)).length with hz | hp
      · rw [hz]
        simp
      · rw [div_le_one (by exact_mod_cast hp)]
        exact_mod_cast hfle
    · exact zip_filter_count byv score hlen g
    · rcases Nat.eq_zero_or_pos ((byv.zip score).filter (fun r => r.1 == g)).length with hz | hp
      · have hz2 : ((((byv.zip score).filter (fun r => r.1 == g)).filter
            (fun r => r.2)).length) = 0 :=
          le_antisymm (hz ▸ hfle) (Nat.zero_le _)
        rw [← hff, hz, hz2]
        simp
      · have hnz : (((byv.zip score).filter (fun r => r.1 == g)).length : ℚ) ≠ 0 := by
          exact_mod_cast Nat.pos_iff_ne_zero.mp hp
        rw [← hff, div_mul_cancel₀ _ hnz]
  · rfl
  · have hd : (["A", "A", "B", "B"] : List String).dedup = ["A", "B"] := by decide
    rw [selection_rates]
    simp [hd, List.filter]

/-- Witness for C9 at a concrete aligned pair of columns: scores F, T in
groups A, B, whose per-group sample sizes sum to the record count 2. -/
theorem selection_rates_spec_witness :
    ((selection_rates [false, true] ["A", "B"]).map GroupStat.n).sum =
      (["A", "B"] : List String).length :=
  (selection_rates_spec [false, true] ["A", "B"] rfl).1

/-- Vandermonde's identity specialised to the hypergeometric weights: the
total weight of all tables with the observed margins is choose(r1+r2, c1).
The summands with an invalid first cell k (k beyond r1, or c1 - k beyond
r2) vanish, so summing over 0..c1 is exact. -/
theorem sum_hwt (r1 r2 c1 : ℕ) :
    (Finset.range (c1 + 1)).sum (fun k => hwt r1 r2 c1 k) = (r1 + r2).choose c1 := by
  rw [Nat.add_choose_eq, Finset.Nat.sum_antidiagonal_eq_sum_range_succ_mk]
  rfl

/-- Core of the agreement between the code's Fisher test and the
specification's reference test: the thresholded weight sum over 0..c1,
divided by the total weight, equals the probability sum over the valid
tables whose probability does not exceed the observed one. -/
theorem fisher_core (r1 r2 c1 o : ℕ) (hc : c1 ≤ r1 + r2) :
    ((((Finset.range (c1 + 1)).sum (fun k =>
        if hwt r1 r2 c1 k ≤ hwt r1 r2 c1 o then hwt r1 r2 c1 k else 0)) : ℕ) : ℚ) /
      (((r1 + r2).choose c1 : ℕ) : ℚ) =
    ((Finset.range (r1 + r2 + 1)).filter (fun k =>
        k ≤ r1 ∧ c1 ≤ r2 + k ∧ k ≤ c1 ∧
        ((r1.choose k * r2.choose (c1 - k) : ℕ) : ℚ) / (((r1 + r2).choose c1 : ℕ) : ℚ) ≤
          ((r1.choose o * r2.choose (c1 - o) : ℕ) : ℚ) /
            (((r1 + r2).choose c1 : ℕ) : ℚ))).sum
      (fun k => ((r1.choose k * r2.choose (c1 - k) : ℕ) : ℚ) /
        (((r1 + r2).choose c1 : ℕ) : ℚ)) := by
  have hD : (0 : ℚ) < (((r1 + r2).choose c1 : ℕ) : ℚ) := by
    exact_mod_cast Nat.choose_pos hc
  have hcond : ∀ k : ℕ,
      ((r1.choose k : ℚ) * (r2.choose (c1 - k) : ℚ) / (((r1 + r2).choose c1 : ℕ) : ℚ) ≤
        (r1.choose o : ℚ) * (r2.choose (c1 - o) : ℚ) / (((r1 + r2).choose c1 : ℕ) : ℚ)) ↔
      (r1.choose k * r2.choose (c1 - k) ≤ r1.choose o * r2.choose (c1 - o)) := by
    intro k
    rw [div_le_div_iff_of_pos_right hD]
    exact_mod_cast Iff.rfl
  rw [← Finset.sum_div]
  congr 1
  simp only [hwt]
  push_cast
  rw [← Finset.sum_filter]
  apply (Finset.sum_subset ?_ ?_).symm
  · intro k hk
    simp only [Finset.mem_filter, Finset.mem_range, Nat.lt_succ_iff] at hk ⊢
    obtain ⟨-, -, -, hk3, hk4⟩ := hk
    exact ⟨hk3, by exact_mod_cast (hcond k).mp hk4⟩
  · intro k hk hks
    simp only [Finset.mem_filter, Finset.mem_range, Nat.lt_succ_iff] at hk hks
    obtain ⟨hkc, hkw⟩ := hk
    have hkN : k ≤ r1 + r2 := by omega
    have hnot : ¬ (k ≤ r1 ∧ c1 ≤ r2 + k ∧ k ≤ c1 ∧
        ((r1.choose k : ℚ) * (r2.choose (c1 - k) : ℚ) / (((r1 + r2).choose c1 : ℕ) : ℚ) ≤
          (r1.choose o : ℚ) * (r2.choose (c1 - o) : ℚ) /
            (((r1 + r2).choose c1 : ℕ) : ℚ))) := by
      intro hcontra
      exact hks ⟨hkN, hcontra⟩
    by_cases h1 : k ≤ r1
    · by_cases h2 : c1 ≤ r2 + k
      · exfalso
        apply hnot
        refine ⟨h1, h2, hkc, (hcond k).mpr ?_⟩
        exact_mod_cast hkw
      · have hlt : r2 < c1 - k := by omega
        rw [Nat.choose_eq_zero_of_lt hlt]
        push_cast
        ring
    · have hlt : r1 < k := by omega
      rw [Nat.choose_eq_zero_of_lt hlt]
      push_cast
      ring

/-- The code's Fisher exact test agrees exactly (hence within any floating
point tolerance) with the specification's reference exact test. -/
theorem fisher_exact_eq_specExactTest (a b c d : ℕ) :
    fisher_exact a b c d = specExactTest a b c d := by
  have h := fisher_core (a + b) (c + d) (a + c) a (by omega)
  simp only [fisher_exact, fisherNum, fisherDen, specExactTest]
  exact h

/-- Fisher p-values are nonnegative. -/
theorem fisher_exact_nonneg (a b c d : ℕ) : 0 ≤ fisher_exact a b c d :=
  div_nonneg (Nat.cast_nonneg _) (Nat.cast_nonneg _)

/-- The thresholded weight sum never exceeds the total weight. -/
theorem fisherNum_le_fisherDen (a b c d : ℕ) : fisherNum a b c d ≤ fisherDen a b c d := by
  calc fisherNum a b c d
      ≤ (Finset.range (a + c + 1)).sum (fun k => hwt (a + b) (c + d) (a + c) k) := by
        apply Finset.sum_le_sum
        intro k hk
        split
        · exact le_refl _
        · exact Nat.zero_le _
    _ = fisherDen a b c d := sum_hwt _ _ _

/-- Fisher p-values never exceed one. -/
theorem fisher_exact_le_one (a b c d : ℕ) : fisher_exact a b c d ≤ 1 := by
  rw [fisher_exact, div_le_one
    (by exact_mod_cast Nat.choose_pos (by omega : a + c ≤ a + b + (c + d)))]
  exact_mod_cast fisherNum_le_fisherDen a b c d

/-- On the Scenario D contingency table [[8,2],[2,8]] the two-sided Fisher
exact test p-value is exactly 1063/46189, about 0.0230. -/
theorem fisher_exact_scenarioD : fisher_exact 8 2 2 8 = 1063 / 46189 := by
  have h1 : fisherNum 8 2 2 8 = 4252 := by decide
  have h2 : fisherDen 8 2 2 8 = 184756 := by decide
  rw [fisher_exact, h1, h2]
  norm_num

/-- Evaluation of fet_series on the Scenario D columns: one p-value row,
for the focal group B against referent A. -/
theorem fet_series_scenarioD : fet_series scenarioD_groups scenarioD_score "A" =
    some [("B", 1063 / 46189)] := by
  have hidx : crosstabIndex scenarioD_groups = ["A", "B"] := by decide
  rw [fet_series, hidx, if_pos (by decide)]
  have hfil : (["A", "B"].filter (fun g => g != "A")) = ["B"] := by decide
  rw [hfil]
  simp only [List.map]
  have c1 : cellCount scenarioD_groups scenarioD_score "B" false = 8 := by decide
  have c2 : cellCount scenarioD_groups scenarioD_score "B" true = 2 := by decide
  have c3 : cellCount scenarioD_groups scenarioD_score "A" false = 2 := by decide
  have c4 : cellCount scenarioD_groups scenarioD_score "A" true = 8 := by decide
  rw [c1, c2, c3, c4, fisher_exact_scenarioD]

/-- Evaluation of selection_rates on the Scenario D columns. -/
theorem selection_rates_scenarioD : selection_rates scenarioD_score scenarioD_groups =
    [⟨"A", 4/5, 10⟩, ⟨"B", 1/5, 10⟩] := by
  have hd : scenarioD_groups.dedup = ["A", "B"] := by decide
  rw [selection_rates]
  simp only [hd]
  simp [scenarioD_groups, scenarioD_score, List.filter]
  norm_num

/-- Evaluation of impact_ratios on the Scenario D table with referent A:
the referent's own ratio is 1 and B's ratio is (2/10)/(8/10) = 1/4. -/
theorem impact_ratios_scenarioD :
    impact_ratios (selection_rates scenarioD_score scenarioD_groups) "A" =
      some [("A", PandasFloat.val 1), ("B", PandasFloat.val (1/4))] := by
  rw [selection_rates_scenarioD, impact_ratios]
  have hl : srLookup [⟨"A", 4/5, 10⟩, ⟨"B", 1/5, 10⟩] "A" = some (4/5) := by
    simp [srLookup, List.find?]
  rw [hl]
  simp only [Option.map]
  simp only [List.map]
  norm_num [pdiv]

/-- Counterexample to C3 as stated: on Scenario D's raw columns the code's
two-sided exact-test p-value for B against referent A is exactly
1063/46189, about 0.0230, which is not within 0.02 of the claimed 0.046
(the claimed figure is twice the true value). -/
theorem fet_series_scenarioD_not_0046 :
    fet_series scenarioD_groups scenarioD_score "A" = some [("B", 1063 / 46189)] ∧
    ¬ |(1063 : ℚ) / 46189 - 46 / 1000| ≤ 1 / 50 := by
  refine ⟨fet_series_scenarioD, ?_⟩
  rw [abs_sub_comm, abs_of_pos (by norm_num)]
  norm_num

/-- C3 (amended): fet_series computes, from the raw pass/fail counts, one
two-sided Fisher exact p-value per non-referent group; the code's test
agrees exactly with the reference exact test, every emitted p-value lies in
[0,1], and on Scenario D the p-value for B is exactly 1063/46189, within
1/10000 of 0.023, while B's impact ratio is (2/10)/(8/10) = 1/4. -/
theorem fet_series_spec :
    (∀ a b c d : ℕ, fisher_exact a b c d = specExactTest a b c d) ∧
    (∀ (byv : List String) (score : List Bool) (referent : String)
        (out : List (String × ℚ)),
      fet_series byv score referent = some out →
      (∀ x ∈ out, 0 ≤ x.2 ∧ x.2 ≤ 1) ∧
      out.map Prod.fst = (crosstabIndex byv).filter (fun g => g != referent)) ∧
    (fet_series scenarioD_groups scenarioD_score "A" = some [("B", 1063 / 46189)] ∧
      |(1063 : ℚ) / 46189 - 23 / 1000| ≤ 1 / 10000) ∧
    (impact_ratios (selection_rates scenarioD_score scenarioD_groups) "A" =
      some [("A", PandasFloat.val 1), ("B", PandasFloat.val (1/4))]) := by
  refine ⟨fisher_exact_eq_specExactTest, ?_,
    ⟨fet_series_scenarioD, by rw [abs_of_pos (by norm_num)]; norm_num⟩,
    impact_ratios_scenarioD⟩
  intro byv score referent out h
  rw [fet_series] at h
  split at h
  · rw [Option.some_inj] at h
    constructor
    · intro x hx
      rw [← h] at hx
      obtain ⟨focal, hfocal, rfl⟩ := List.mem_map.mp hx
      exact ⟨fisher_exact_nonneg _ _ _ _, fisher_exact_le_one _ _ _ _⟩
    · rw [← h, List.map_map]
      simp [Function.comp_def]
  · exact Option.noConfusion h

/-- Witness for C3 at the Scenario D output: the single emitted p-value
1063/46189 lies in [0,1]. -/
theorem fet_series_spec_witness :
    0 ≤ (1063 : ℚ) / 46189 ∧ (1063 : ℚ) / 46189 ≤ 1 :=
  (fet_series_spec.2.1 scenarioD_groups scenarioD_score "A" [("B", 1063 / 46189)]
      fet_series_scenarioD).1 ("B", 1063 / 46189) (by simp)

/-- C10: constructing the orchestrator with the default filters = None
always raises AttributeError inside the Analysis base constructor (the
unconditional filters.items() loop), before any pipeline stage runs, for
every input and configuration. -/
theorem adverseImpact_default_filters_raises (x : List String) (y : List ℚ)
    (cutscore : Option ℚ) (groups : Option (ℚ ⊕ List ℚ))
    (referent : Option String) (min_ref : ℕ) :
    adverseImpact x y cutscore groups none referent min_ref =
      .error .attributeError := by
  rfl

end Iopsy
